import Mathlib

/-!
Shallow embedding of `src/match_highlighter.py`.

The deterministic core of the program is three functions:

* `split_into_one_minute_videos` — plans the chunk windows (fixed 60-second
  chunk length); the media I/O (`VideoFileClip`, `write_videofile`) is
  external, so the embedding keeps only the window arithmetic, driven by
  `duration = int(video.duration)`.
* `process_responses` — extracts `\d{2}:\d{2}:\d{2}` matches from each
  response text, shifts each by `i * 60` where `i` is the response index,
  and re-formats the shifted value with `f"{h:02d}:{m:02d}:{s:02d}"`.
* `extract_highlights_merged` — parses the timestamp strings back to
  seconds, pads each to `(c - pre, c + post)`, sorts, sweeps merging
  touching/overlapping intervals, then clamps each surviving interval to
  `[0, media_duration]` and hands it to the media backend.

Strings are modelled as `List Char`; Python integers as `Nat`/`Int`.
-/

/-- Decimal digit character of a digit value, as produced by Python's decimal
integer formatting.  Arguments `>= 10` never occur (digits come from `% 10`). -/
def digitChar : Nat → Char
  | 0 => '0'
  | 1 => '1'
  | 2 => '2'
  | 3 => '3'
  | 4 => '4'
  | 5 => '5'
  | 6 => '6'
  | 7 => '7'
  | 8 => '8'
  | 9 => '9'
  | _ => '*'

/-- Least-significant-first decimal digit characters of `n`.  The `fuel`
argument only bounds the recursion: any `fuel >= n` gives the exact decimal
digits, since `n / 10 < n` for `n > 0`. -/
def digitsRev : Nat → Nat → List Char
  | 0, _ => []
  | fuel + 1, n => if n = 0 then [] else digitChar (n % 10) :: digitsRev fuel (n / 10)

/-- Decimal representation of `n`, most significant digit first — Python's
`str`/`repr` of a non-negative integer. -/
def natToChars (n : Nat) : List Char :=
  if n = 0 then ['0'] else (digitsRev n n).reverse

/-- Python's `f"{n:02d}"`: decimal representation zero-padded on the left to
width two; numbers of three or more digits are printed in full, never
truncated. -/
def fmt2 (n : Nat) : List Char :=
  if n < 10 then '0' :: natToChars n else natToChars n

/-- Python's `int()` applied to a non-empty, all-digit decimal string (the
only shape that reaches it in this program). -/
def parseNat (cs : List Char) : Nat :=
  cs.foldl (fun a c => 10 * a + (c.toNat - 48)) 0

/-- Prepend a character to the first field of a split result. -/
def consHead (c : Char) : List (List Char) → List (List Char)
  | [] => [[c]]
  | g :: gs => (c :: g) :: gs

/-- Python's `str.split(":")`: `"".split(":") == [""]`, and each colon starts
a new (possibly empty) field. -/
def splitOnColon : List Char → List (List Char)
  | [] => [[]]
  | c :: rest =>
    if c = ':' then [] :: splitOnColon rest
    else consHead c (splitOnColon rest)

/-- The `time_to_sec` helper of `process_responses` (and the identical
`t_to_sec` helper of `extract_highlights_merged`):
`h, m, s = map(int, t.split(":")); return h*3600 + m*60 + s`.
Python raises `ValueError` when the split does not yield exactly three
fields; every call site passes either a regex match of `\d{2}:\d{2}:\d{2}`
or a `sec_to_time` result, both of which have exactly three fields, so that
unreachable branch is modelled as `0`. -/
def time_to_sec (t : List Char) : Nat :=
  match splitOnColon t with
  | [hh, mm, ss] => parseNat hh * 3600 + parseNat mm * 60 + parseNat ss
  | _ => 0

/-- The `sec_to_time` helper of `process_responses`:
`h = sec // 3600; m = (sec % 3600) // 60; s = sec % 60` rendered as
`f"{h:02d}:{m:02d}:{s:02d}"`. -/
def sec_to_time (sec : Nat) : List Char :=
  fmt2 (sec / 3600) ++ ':' :: (fmt2 (sec % 3600 / 60) ++ ':' :: fmt2 (sec % 60))

/-- Scanner for Python's `re.findall(r"\d{2}:\d{2}:\d{2}", text)`: try to
match the fixed-width pattern at the current position; on success record the
match and resume after its last character (matches are non-overlapping), on
failure advance one character.  A window shorter than eight characters can
contain no match.  The `fuel` argument only bounds the recursion; every step
consumes at least one character, so `fuel = text.length` is exact. -/
def findallAux : Nat → List Char → List (List Char)
  | 0, _ => []
  | fuel + 1, c1 :: c2 :: c3 :: c4 :: c5 :: c6 :: c7 :: c8 :: rest =>
    if c1.isDigit && c2.isDigit && c3 == ':' && c4.isDigit && c5.isDigit
        && c6 == ':' && c7.isDigit && c8.isDigit then
      [c1, c2, c3, c4, c5, c6, c7, c8] :: findallAux fuel rest
    else
      findallAux fuel (c2 :: c3 :: c4 :: c5 :: c6 :: c7 :: c8 :: rest)
  | _ + 1, _ => []

/-- Python's `re.findall(r"\d{2}:\d{2}:\d{2}", text)` for a string `text`. -/
def findall (text : List Char) : List (List Char) :=
  findallAux text.length text

/-- Error raised by the Python runtime. -/
inductive PyError where
  | typeError
deriving DecidableEq

/-- The extraction call `re.findall(r"\d{2}:\d{2}:\d{2}", raw)` as a function
of the raw model text.  Python's `re.findall` raises `TypeError` when its
subject is `None` ("expected string or bytes-like object"); on a string it
always succeeds. -/
def findall_py : Option (List Char) → Except PyError (List (List Char))
  | none => Except.error PyError.typeError
  | some s => Except.ok (findall s)

/-- The window arithmetic of `split_into_one_minute_videos`: with
`chunk_length = 60` fixed, Python's `range(0, duration, 60)` enumerates the
starts `60*i` for `i < (duration + 59) / 60`, `part` counts from 1, and
`end = min(start + chunk_length, duration)`.  Returns the `(part, start,
end)` triples in generation order; the media writing itself is external. -/
def split_into_one_minute_videos (duration : Nat) : List (Nat × Nat × Nat) :=
  (List.range ((duration + 60 - 1) / 60)).map fun i =>
    (i + 1, 60 * i, min (60 * i + 60) duration)

/-- Loop body of `process_responses`: `for i, entry in enumerate(responses)`
starting at index `i`, appending
`sec_to_time(time_to_sec(t) + offset)` with `offset = i * 60` for every
regex match `t` in the entry's response text. -/
def process_aux (i : Nat) : List (List Char) → List (List Char)
  | [] => []
  | resp :: rest =>
    ((findall resp).map fun t => sec_to_time (time_to_sec t + i * 60))
      ++ process_aux (i + 1) rest

/-- `process_responses`: enumeration starts at index 0.  Each entry of the
`responses` list is modelled by its `"response"` text — the only field the
function reads. -/
def process_responses (responses : List (List Char)) : List (List Char) :=
  process_aux 0 responses

/-- Lexicographic order on pairs of integers — how Python's `list.sort()`
compares 2-tuples. -/
def lexLE (a b : Int × Int) : Prop :=
  a.1 < b.1 ∨ (a.1 = b.1 ∧ a.2 ≤ b.2)

instance : DecidableRel lexLE := fun a b =>
  decidable_of_iff (a.1 < b.1 ∨ (a.1 = b.1 ∧ a.2 ≤ b.2)) Iff.rfl

instance : IsTotal (Int × Int) lexLE := ⟨by intro a b; unfold lexLE; omega⟩

instance : IsTrans (Int × Int) lexLE := ⟨by intro a b c; unfold lexLE; omega⟩

instance : IsAntisymm (Int × Int) lexLE := ⟨by
  intro a b h1 h2
  have hext : a.1 = b.1 ∧ a.2 = b.2 := by unfold lexLE at h1 h2; omega
  exact Prod.ext hext.1 hext.2⟩

/-- The `raw_intervals` list of `extract_highlights_merged`: for each
timestamp string `t`, `c = t_to_sec(t)` and the padded pair
`(c - pre, c + post)`, in input order. -/
def raw_intervals (timestamps : List (List Char)) (pre post : Int) : List (Int × Int) :=
  timestamps.map fun t =>
    let c : Int := time_to_sec t
    (c - pre, c + post)

/-- The merge sweep of `extract_highlights_merged`, phrased with the current
accumulator (`merged[-1]` in the Python loop) as an explicit argument: a next
interval starting at or before the accumulator's end extends the
accumulator's end to the max of the two ends; otherwise the accumulator is
closed and the next interval opens a new one. -/
def mergeSweepAux (acc : Int × Int) : List (Int × Int) → List (Int × Int)
  | [] => [acc]
  | (s, e) :: rest =>
    if s ≤ acc.2 then mergeSweepAux (acc.1, max acc.2 e) rest
    else acc :: mergeSweepAux (s, e) rest

/-- The full sweep: an empty interval list yields `merged == []`; otherwise
the first interval opens the first accumulator. -/
def mergeSweep : List (Int × Int) → List (Int × Int)
  | [] => []
  | x :: xs => mergeSweepAux x xs

/-- The `merged` list of `extract_highlights_merged`: padded intervals,
sorted by `list.sort()` (a stable sort under the lexicographic tuple order;
that order is total and antisymmetric, so any correct sort yields the same
list, modelled here by insertion sort), then swept.  -/
def merged (timestamps : List (List Char)) (pre post : Int) : List (Int × Int) :=
  mergeSweep (List.insertionSort lexLE (raw_intervals timestamps pre post))

/-- The clip ranges `extract_highlights_merged` hands to the media backend:
for each merged interval, `s = max(0, s)` and `e = min(video.duration, e)`
(`media_duration` models `video.duration`), appended in order.  Note the
source appends every clamped interval — there is no test dropping
degenerate ones. -/
def extract_highlights_merged (timestamps : List (List Char))
    (media_duration pre post : Int) : List (Int × Int) :=
  (merged timestamps pre post).foldl
    (fun clips p => clips ++ [(max 0 p.1, min media_duration p.2)]) []

/-- Strict separation with ordered starts — the invariant the merged list
satisfies, as a named relation so transitivity can be registered. -/
def sepLE (a b : Int × Int) : Prop :=
  a.2 < b.1 ∧ a.1 ≤ b.1

instance : IsTrans (Int × Int) sepLE :=
  ⟨by intro a b c h1 h2; unfold sepLE at h1 h2 ⊢; omega⟩

/-! Decimal formatting and parsing round-trip. -/

theorem digitChar_toNat (d : Nat) (h : d < 10) : (digitChar d).toNat = 48 + d := by
  interval_cases d <;> rfl

theorem digitChar_ne_colon (d : Nat) : digitChar d ≠ ':' := by
  match d with
  | 0 | 1 | 2 | 3 | 4 | 5 | 6 | 7 | 8 | 9 => decide
  | n + 10 =>
    have hne : ('*' : Char) ≠ ':' := by decide
    exact fun hcontra => hne hcontra

theorem parseNat_append (xs : List Char) (c : Char) :
    parseNat (xs ++ [c]) = 10 * parseNat xs + (c.toNat - 48) := by
  unfold parseNat
  rw [List.foldl_append]
  rfl

theorem parseNat_digitsRev : ∀ f n : Nat, n ≤ f →
    parseNat ((digitsRev f n).reverse) = n := by
  intro f
  induction f with
  | zero =>
    intro n hn
    have h0 : n = 0 := by omega
    subst h0
    rfl
  | succ f ih =>
    intro n hn
    by_cases h0 : n = 0
    · subst h0; rfl
    · rw [show digitsRev (f + 1) n = digitChar (n % 10) :: digitsRev f (n / 10) from by
        simp [digitsRev, h0]]
      rw [List.reverse_cons, parseNat_append]
      have hdivle : n / 10 ≤ f := by
        have hdivlt : n / 10 < n := Nat.div_lt_self (Nat.pos_of_ne_zero h0) (by norm_num)
        omega
      rw [ih (n / 10) hdivle]
      rw [digitChar_toNat (n % 10) (Nat.mod_lt n (by norm_num))]
      omega

theorem parseNat_natToChars (n : Nat) : parseNat (natToChars n) = n := by
  unfold natToChars
  split
  · rename_i h0; subst h0; rfl
  · exact parseNat_digitsRev n n le_rfl

theorem parseNat_cons_zero (L : List Char) : parseNat ('0' :: L) = parseNat L := rfl

theorem parseNat_fmt2 (n : Nat) : parseNat (fmt2 n) = n := by
  unfold fmt2
  split
  · rw [parseNat_cons_zero, parseNat_natToChars]
  · exact parseNat_natToChars n

theorem colon_not_mem_digitsRev : ∀ f n : Nat, ':' ∉ digitsRev f n := by
  intro f
  induction f with
  | zero => intro n; simp [digitsRev]
  | succ f ih =>
    intro n
    by_cases h0 : n = 0
    · subst h0; simp [digitsRev]
    · rw [show digitsRev (f + 1) n = digitChar (n % 10) :: digitsRev f (n / 10) from by
        simp [digitsRev, h0]]
      intro hmem
      rcases List.mem_cons.mp hmem with hc | hm
      · exact digitChar_ne_colon _ hc.symm
      · exact ih _ hm

theorem colon_not_mem_natToChars (n : Nat) : ':' ∉ natToChars n := by
  unfold natToChars
  split
  · decide
  · intro hmem
    exact colon_not_mem_digitsRev n n (List.mem_reverse.mp hmem)

theorem colon_not_mem_fmt2 (n : Nat) : ':' ∉ fmt2 n := by
  unfold fmt2
  split
  · intro hmem
    rcases List.mem_cons.mp hmem with hc | hm
    · exact absurd hc (by decide)
    · exact colon_not_mem_natToChars n hm
  · exact colon_not_mem_natToChars n

theorem splitOnColon_no_colon : ∀ xs : List Char, ':' ∉ xs → splitOnColon xs = [xs] := by
  intro xs
  induction xs with
  | nil => intro _; rfl
  | cons c rest ih =>
    intro h
    have hc : ¬ c = ':' := by
      intro hc
      rw [hc] at h
      exact h (List.mem_cons_self _ _)
    have hrest : ':' ∉ rest := fun hm => h (List.mem_cons_of_mem _ hm)
    rw [show splitOnColon (c :: rest) = consHead c (splitOnColon rest) from by
      simp [splitOnColon, hc]]
    rw [ih hrest]
    rfl

theorem splitOnColon_append : ∀ xs rest : List Char, ':' ∉ xs →
    splitOnColon (xs ++ ':' :: rest) = xs :: splitOnColon rest := by
  intro xs
  induction xs with
  | nil => intro rest _; simp [splitOnColon]
  | cons c xs ih =>
    intro rest h
    have hc : ¬ c = ':' := by
      intro hc
      rw [hc] at h
      exact h (List.mem_cons_self _ _)
    have hxs : ':' ∉ xs := fun hm => h (List.mem_cons_of_mem _ hm)
    rw [List.cons_append]
    rw [show splitOnColon (c :: (xs ++ ':' :: rest)) = consHead c (splitOnColon (xs ++ ':' :: rest)) from by
      simp [splitOnColon, hc]]
    rw [ih rest hxs]
    rfl

theorem time_to_sec_parts (A B C : List Char) (hA : ':' ∉ A) (hB : ':' ∉ B) (hC : ':' ∉ C) :
    time_to_sec (A ++ ':' :: (B ++ ':' :: C))
      = parseNat A * 3600 + parseNat B * 60 + parseNat C := by
  unfold time_to_sec
  rw [splitOnColon_append A _ hA, splitOnColon_append B _ hB, splitOnColon_no_colon C hC]

theorem time_to_sec_sec_to_time (n : Nat) : time_to_sec (sec_to_time n) = n := by
  unfold sec_to_time
  rw [time_to_sec_parts _ _ _ (colon_not_mem_fmt2 _) (colon_not_mem_fmt2 _)
    (colon_not_mem_fmt2 _)]
  rw [parseNat_fmt2, parseNat_fmt2, parseNat_fmt2]
  omega

/-! Normalization: the emitted strings, parsed back, are the shifted
timestamps in per-chunk order then chunk order. -/

theorem process_aux_map (rs : List (List Char)) : ∀ i : Nat,
    (process_aux i rs).map time_to_sec
      = (List.enumFrom i rs).flatMap fun p =>
          (findall p.2).map fun t => time_to_sec t + 60 * p.1 := by
  induction rs with
  | nil => intro i; rfl
  | cons r rest ih =>
    intro i
    rw [show process_aux i (r :: rest)
        = ((findall r).map fun t => sec_to_time (time_to_sec t + i * 60))
            ++ process_aux (i + 1) rest from rfl]
    rw [show List.enumFrom i (r :: rest) = (i, r) :: List.enumFrom (i + 1) rest from rfl]
    rw [List.flatMap_cons, List.map_append, ih (i + 1), List.map_map]
    have hmaps : (time_to_sec ∘ fun t => sec_to_time (time_to_sec t + i * 60))
        = fun t => time_to_sec t + 60 * (i, r).1 := by
      funext t
      simp only [Function.comp]
      rw [time_to_sec_sec_to_time]
      ring
    rw [hmaps]

/-! The merge sweep and the clamping pass. -/

theorem foldl_append_eq_map (D : Int) (l : List (Int × Int)) : ∀ init : List (Int × Int),
    l.foldl (fun clips p => clips ++ [(max 0 p.1, min D p.2)]) init
      = init ++ l.map (fun p => (max 0 p.1, min D p.2)) := by
  induction l with
  | nil => intro init; simp
  | cons x xs ih =>
    intro init
    rw [List.foldl_cons, ih, List.map_cons]
    simp

theorem extract_eq_map (ts : List (List Char)) (D pre post : Int) :
    extract_highlights_merged ts D pre post
      = (merged ts pre post).map fun p => (max 0 p.1, min D p.2) := by
  unfold extract_highlights_merged
  rw [foldl_append_eq_map]
  rfl

theorem mergeSweepAux_shape : ∀ (l : List (Int × Int)) (acc : Int × Int),
    ∃ e2 tl, mergeSweepAux acc l = (acc.1, e2) :: tl := by
  intro l
  induction l with
  | nil => intro acc; exact ⟨acc.2, [], rfl⟩
  | cons x rest ih =>
    intro acc
    obtain ⟨s, e⟩ := x
    by_cases hse : s ≤ acc.2
    · rw [show mergeSweepAux acc ((s, e) :: rest) = mergeSweepAux (acc.1, max acc.2 e) rest from by
        simp [mergeSweepAux, hse]]
      exact ih (acc.1, max acc.2 e)
    · rw [show mergeSweepAux acc ((s, e) :: rest) = acc :: mergeSweepAux (s, e) rest from by
        simp [mergeSweepAux, hse]]
      exact ⟨acc.2, mergeSweepAux (s, e) rest, rfl⟩

theorem mergeSweepAux_chain : ∀ (l : List (Int × Int)) (acc : Int × Int),
    l.Pairwise (fun a b => a.1 ≤ b.1) → (∀ x ∈ l, acc.1 ≤ x.1) →
    List.Chain' sepLE (mergeSweepAux acc l) := by
  intro l
  induction l with
  | nil =>
    intro acc _ _
    exact List.chain'_singleton acc
  | cons x rest ih =>
    intro acc hpw hacc
    obtain ⟨s, e⟩ := x
    rw [List.pairwise_cons] at hpw
    obtain ⟨hs, hrest⟩ := hpw
    have haccs : acc.1 ≤ s := hacc (s, e) (List.mem_cons_self _ _)
    by_cases hse : s ≤ acc.2
    · rw [show mergeSweepAux acc ((s, e) :: rest) = mergeSweepAux (acc.1, max acc.2 e) rest from by
        simp [mergeSweepAux, hse]]
      exact ih (acc.1, max acc.2 e) hrest fun x hx => le_trans haccs (hs x hx)
    · rw [show mergeSweepAux acc ((s, e) :: rest) = acc :: mergeSweepAux (s, e) rest from by
        simp [mergeSweepAux, hse]]
      obtain ⟨e2, tl, heq⟩ := mergeSweepAux_shape rest (s, e)
      rw [heq, List.chain'_cons]
      constructor
      · exact ⟨by omega, haccs⟩
      · rw [← heq]
        exact ih (s, e) hrest hs

theorem merged_pairwise (ts : List (List Char)) (pre post : Int) :
    (merged ts pre post).Pairwise sepLE := by
  unfold merged
  have hsorted : List.Sorted lexLE (List.insertionSort lexLE (raw_intervals ts pre post)) :=
    List.sorted_insertionSort lexLE (raw_intervals ts pre post)
  have hpw : (List.insertionSort lexLE (raw_intervals ts pre post)).Pairwise
      (fun a b : Int × Int => a.1 ≤ b.1) := by
    refine List.Pairwise.imp ?_ hsorted
    intro a b hab
    unfold lexLE at hab
    omega
  cases hlist : List.insertionSort lexLE (raw_intervals ts pre post) with
  | nil => exact List.Pairwise.nil
  | cons x xs =>
    rw [hlist] at hpw
    rw [List.pairwise_cons] at hpw
    rw [show mergeSweep (x :: xs) = mergeSweepAux x xs from rfl]
    exact List.chain'_iff_pairwise.mp (mergeSweepAux_chain xs x hpw.2 hpw.1)

/-! Chunk planner arithmetic. -/

theorem split_length (d : Nat) :
    (split_into_one_minute_videos d).length = (d + 60 - 1) / 60 := by
  unfold split_into_one_minute_videos
  rw [List.length_map, List.length_range]

theorem split_get (d k : Nat) (h : k < (split_into_one_minute_videos d).length) :
    (split_into_one_minute_videos d).get ⟨k, h⟩ = (k + 1, 60 * k, min (60 * k + 60) d) := by
  simp only [split_into_one_minute_videos, List.get_eq_getElem, List.getElem_map,
    List.getElem_range]

theorem split_index_lt (d k : Nat) (h : k < (split_into_one_minute_videos d).length) :
    60 * k < d := by
  rw [split_length] at h
  omega

/-! The claims. -/

/-- Claim C1: end-to-end deterministic-core scenario — duration 150 with the
fixed chunk length 60 plans exactly the chunks [0,60), [60,120), [120,150);
per-chunk model texts "[00:00:12]", "[]", "[00:00:05]" extract and normalize
to the global timestamps [12, 125]; merging with pre=10, post=10 yields
exactly the intervals [2,22] and [115,135]. -/
theorem end_to_end_scenario_150 :
    split_into_one_minute_videos 150 = [(1, 0, 60), (2, 60, 120), (3, 120, 150)]
      ∧ process_responses ["[00:00:12]".data, "[]".data, "[00:00:05]".data]
          = ["00:00:12".data, "00:02:05".data]
      ∧ (process_responses ["[00:00:12]".data, "[]".data, "[00:00:05]".data]).map time_to_sec
          = [12, 125]
      ∧ extract_highlights_merged
          (process_responses ["[00:00:12]".data, "[]".data, "[00:00:05]".data]) 150 10 10
          = [(2, 22), (115, 135)] :=
  ⟨by decide, by decide, by decide, by decide⟩

/-- Claim C2: for every input timestamp list and all pre, post and media
duration, the merged output is sorted ascending by interval start and any two
distinct intervals in it, the earlier i and the later j, satisfy
i.end < j.start — strictly separated, never touching or overlapping. -/
theorem merged_output_sorted_strictly_separated
    (ts : List (List Char)) (D pre post : Int) :
    (extract_highlights_merged ts D pre post).Pairwise
      fun i j => i.1 ≤ j.1 ∧ i.2 < j.1 := by
  rw [extract_eq_map]
  rw [List.pairwise_map]
  refine List.Pairwise.imp ?_ (merged_pairwise ts pre post)
  intro a b hab
  unfold sepLE at hab
  constructor
  · show max 0 a.1 ≤ max 0 b.1
    omega
  · show min D a.2 < max 0 b.1
    omega

/-- Claim C3 counterexample: with the single timestamp "00:03:20" (200 s),
media duration 150 and pre=post=10, the code emits the clamped interval
(190, 150), whose start is not below its end — so the final output is not
free of degenerate intervals. -/
theorem degenerate_interval_survives_cex :
    extract_highlights_merged ["00:03:20".data] 150 10 10 = [(190, 150)]
      ∧ ¬ ∀ p ∈ extract_highlights_merged ["00:03:20".data] 150 10 10, p.1 < p.2 :=
  ⟨by decide, by decide⟩

/-- Claim C3 amended: after the merge sweep every interval's start is clamped
to max(0, start) and its end to min(media_duration, end), but intervals that
are degenerate after clamping are NOT dropped — every merged interval reaches
the output, e.g. the degenerate (190, 150) for timestamp 200 beyond the
150-second media, while a negative padded start is clamped to 0 as in (0, 15)
for timestamp 5 with pre=10. -/
theorem clamp_applied_degenerates_kept (ts : List (List Char)) (D pre post : Int) :
    extract_highlights_merged ts D pre post
        = (merged ts pre post).map (fun p => (max 0 p.1, min D p.2))
      ∧ extract_highlights_merged ["00:00:05".data] 150 10 10 = [(0, 15)]
      ∧ extract_highlights_merged ["00:03:20".data] 150 10 10 = [(190, 150)] :=
  ⟨extract_eq_map ts D pre post, by decide, by decide⟩

/-- Claim C4 counterexample: extraction applied to a null raw text raises a
TypeError — Python's re.findall rejects None — instead of returning the
empty sequence the claim promises. -/
theorem extract_none_raises_cex :
    findall_py none = Except.error PyError.typeError
      ∧ findall_py none ≠ Except.ok [] :=
  ⟨rfl, fun hcontra => Except.noConfusion hcontra⟩

/-- Claim C4 amended: extraction of the failure sentinel "[]" yields the
empty sequence (and a sentinel-only response list contributes no
timestamps), but a null raw text makes re.findall raise a TypeError rather
than yield the empty sequence; the pipeline itself never passes null, since
an exhausted retry budget substitutes the sentinel string "[]". -/
theorem extract_sentinel_empty_null_raises :
    findall ("[]".data) = []
      ∧ findall_py (some ("[]".data)) = Except.ok []
      ∧ process_responses ["[]".data] = []
      ∧ findall_py none = Except.error PyError.typeError :=
  ⟨by decide, congrArg Except.ok (by decide), by decide, rfl⟩

/-- Claim C5: the offset the normalization uses for the i-th response, i*60,
equals the i-th planned chunk's recorded start for every chunk the planner
produces; parsed back to integers, the emitted strings are exactly
offset + t for the local timestamps t, in per-chunk order then chunk order;
and for chunks with starts [0, 60, 120] and local timestamps
[[12], [], [5, 30]] the global output is [12, 125, 150]. -/
theorem normalization_offsets :
    (∀ (d k : Nat) (h : k < (split_into_one_minute_videos d).length),
        ((split_into_one_minute_videos d).get ⟨k, h⟩).2.1 = 60 * k)
      ∧ (∀ rs : List (List Char),
          (process_responses rs).map time_to_sec
            = rs.enum.flatMap fun p => (findall p.2).map fun t => time_to_sec t + 60 * p.1)
      ∧ (process_responses
            ["[00:00:12]".data, "[]".data, "[00:00:05, 00:00:30]".data]).map time_to_sec
          = [12, 125, 150] := by
  refine ⟨?_, ?_, by decide⟩
  · intro d k h
    rw [split_get d k h]
  · intro rs
    rw [show rs.enum = List.enumFrom 0 rs from rfl]
    exact process_aux_map rs 0

/-- Witness for claim C5: at duration 150, the chunk at index 2 has recorded
start 120 = 60 * 2, the offset used for the third response. -/
theorem normalization_offsets_witness :
    ((split_into_one_minute_videos 150).get ⟨2, by decide⟩).2.1 = 60 * 2 :=
  normalization_offsets.1 150 2 (by decide)

/-- Claim C6: in the merge sweep, a next interval whose start is at or below
the current accumulator's end is absorbed by extending the accumulator's end
to the max of the two ends, otherwise a new accumulator opens; timestamps
[20, 25] with pre=10, post=10 pad to (10,30) and (15,35), which merge into
the single interval [10, 35]. -/
theorem sweep_step_and_overlap_example :
    (∀ (acc : Int × Int) (s e : Int) (rest : List (Int × Int)),
        (s ≤ acc.2 →
            mergeSweepAux acc ((s, e) :: rest) = mergeSweepAux (acc.1, max acc.2 e) rest)
          ∧ (¬ s ≤ acc.2 →
            mergeSweepAux acc ((s, e) :: rest) = acc :: mergeSweepAux (s, e) rest))
      ∧ raw_intervals ["00:00:20".data, "00:00:25".data] 10 10 = [(10, 30), (15, 35)]
      ∧ merged ["00:00:20".data, "00:00:25".data] 10 10 = [(10, 35)] := by
  refine ⟨?_, by decide, by decide⟩
  intro acc s e rest
  constructor
  · intro hse
    simp [mergeSweepAux, hse]
  · intro hse
    simp [mergeSweepAux, hse]

/-- Witness for claim C6: the absorption step at the example's accumulator
(10, 30) with next interval (15, 35). -/
theorem sweep_step_and_overlap_example_witness :
    mergeSweepAux ((10 : Int), (30 : Int)) [((15 : Int), (35 : Int))]
      = mergeSweepAux ((10 : Int), max 30 35) [] :=
  (sweep_step_and_overlap_example.1 (10, 30) 15 35 []).1 (by decide)

/-- Claim C7: merging is permutation-invariant — two timestamp lists equal as
multisets give identical merged output for the same pre, post and media
duration, because the intervals are sorted before the sweep. -/
theorem merge_permutation_invariant (ts ts' : List (List Char)) (D pre post : Int)
    (hperm : ts.Perm ts') :
    extract_highlights_merged ts D pre post = extract_highlights_merged ts' D pre post := by
  have hraw : (raw_intervals ts pre post).Perm (raw_intervals ts' pre post) :=
    hperm.map _
  have hsort : List.insertionSort lexLE (raw_intervals ts pre post)
      = List.insertionSort lexLE (raw_intervals ts' pre post) :=
    List.eq_of_perm_of_sorted
      ((List.perm_insertionSort _ _).trans (hraw.trans (List.perm_insertionSort _ _).symm))
      (List.sorted_insertionSort _ _) (List.sorted_insertionSort _ _)
  unfold extract_highlights_merged merged
  rw [hsort]

/-- Witness for claim C7: swapping the two timestamps of the overlap example
leaves the merged output unchanged. -/
theorem merge_permutation_invariant_witness :
    extract_highlights_merged ["00:00:25".data, "00:00:20".data] 150 10 10
      = extract_highlights_merged ["00:00:20".data, "00:00:25".data] 150 10 10 :=
  merge_permutation_invariant _ _ 150 10 10
    (List.Perm.swap "00:00:20".data "00:00:25".data [])

/-- Claim C8: for every duration, the planner's windows exactly partition
[0, duration): indices count 1, 2, ... in generation order, every window has
start < end with end ≤ duration and length ≤ 60, every window but the last
has length exactly 60 and its end equals the next window's start, the first
start is 0 and the last end is the duration whenever it is positive, and
duration 0 yields an empty sequence with no error. -/
theorem chunk_planner_partition (d : Nat) :
    (d = 0 → split_into_one_minute_videos d = [])
      ∧ (∀ k (h : k < (split_into_one_minute_videos d).length),
          ((split_into_one_minute_videos d).get ⟨k, h⟩).1 = k + 1
            ∧ ((split_into_one_minute_videos d).get ⟨k, h⟩).2.1
                < ((split_into_one_minute_videos d).get ⟨k, h⟩).2.2
            ∧ ((split_into_one_minute_videos d).get ⟨k, h⟩).2.2 ≤ d
            ∧ ((split_into_one_minute_videos d).get ⟨k, h⟩).2.2
                - ((split_into_one_minute_videos d).get ⟨k, h⟩).2.1 ≤ 60)
      ∧ (∀ k (h : k + 1 < (split_into_one_minute_videos d).length),
          ((split_into_one_minute_videos d).get ⟨k, Nat.lt_of_succ_lt h⟩).2.2
              = ((split_into_one_minute_videos d).get ⟨k + 1, h⟩).2.1
            ∧ ((split_into_one_minute_videos d).get ⟨k, Nat.lt_of_succ_lt h⟩).2.2
                - ((split_into_one_minute_videos d).get ⟨k, Nat.lt_of_succ_lt h⟩).2.1 = 60)
      ∧ (0 < d → ∃ h0 : 0 < (split_into_one_minute_videos d).length,
          ((split_into_one_minute_videos d).get ⟨0, h0⟩).2.1 = 0
            ∧ ((split_into_one_minute_videos d).get
                ⟨(split_into_one_minute_videos d).length - 1, by omega⟩).2.2 = d) := by
  refine ⟨?_, ?_, ?_, ?_⟩
  · intro h0
    subst h0
    rfl
  · intro k h
    have hk := split_index_lt d k h
    rw [split_get d k h]
    refine ⟨rfl, ?_, ?_, ?_⟩
    · show 60 * k < min (60 * k + 60) d
      omega
    · show min (60 * k + 60) d ≤ d
      omega
    · show min (60 * k + 60) d - 60 * k ≤ 60
      omega
  · intro k h
    have hk1 := split_index_lt d (k + 1) h
    rw [split_get d k (Nat.lt_of_succ_lt h), split_get d (k + 1) h]
    constructor
    · show min (60 * k + 60) d = 60 * (k + 1)
      omega
    · show min (60 * k + 60) d - 60 * k = 60
      omega
  · intro hd
    have hlen : 0 < (split_into_one_minute_videos d).length := by
      rw [split_length]
      omega
    refine ⟨hlen, ?_, ?_⟩
    · rw [split_get d 0 hlen]
    · rw [split_get]
      show min (60 * ((split_into_one_minute_videos d).length - 1) + 60) d = d
      rw [split_length]
      rw [split_length] at hlen
      omega

/-- Witness for claim C8: at duration 150 the planner has three windows; the
window at index 1 carries chunk number 2, and its end meets window 3's
start. -/
theorem chunk_planner_partition_witness :
    ((split_into_one_minute_videos 150).get ⟨1, by decide⟩).1 = 1 + 1
      ∧ ((split_into_one_minute_videos 150).get ⟨1, by decide⟩).2.2
          = ((split_into_one_minute_videos 150).get ⟨2, by decide⟩).2.1 :=
  ⟨((chunk_planner_partition 150).2.1 1 (by decide)).1,
    ((chunk_planner_partition 150).2.2.1 1 (by decide)).1⟩

/-- Claim C9: the HH:MM:SS codec used between normalization and merging
round-trips — formatting any non-negative second count and re-parsing it
recovers the count exactly, even when the hour field needs more than two
digits. -/
theorem timestamp_codec_roundtrip :
    (∀ n : Nat, time_to_sec (sec_to_time n) = n)
      ∧ sec_to_time 360005 = "100:00:05".data
      ∧ time_to_sec ("100:00:05".data) = 360005 :=
  ⟨time_to_sec_sec_to_time, by decide, by decide⟩

/-- Claim C10: the HH:MM:SS pattern is matched without digit-boundary
anchoring — in "111:22:33", which contains no standalone two-digit HH token,
the scanner still finds "11:22:33" inside the digit run, so extraction
returns the single timestamp 40953 = 11*3600 + 22*60 + 33. -/
theorem embedded_digit_run_match :
    findall "111:22:33".data = ["11:22:33".data]
      ∧ (findall "111:22:33".data).map time_to_sec = [40953]
      ∧ 11 * 3600 + 22 * 60 + 33 = 40953 :=
  ⟨by decide, by decide, by decide⟩
